import Mathlib

/-! Verification development for the fift interpreter core: the number parser
    (src/util.rs), the lexer (src/core/lexer.rs) and the continuation engine
    (src/core/cont.rs). Strings are embedded as lists of characters; Rust byte
    offsets are embedded as natural numbers measured with utf8Len. -/

/-- Total utf8 byte length of a list of characters, as Rust str len. -/
def utf8Len (l : List Char) : Nat := (l.map Char.utf8Size).sum

/-- Splits an optional leading minus sign from a token, as the
    strip_prefix call at the top of ImmediateInt parse_single_number
    (src/util.rs lines 34-37): the flag records whether a minus was removed. -/
def negSplit (s : List Char) : Bool × List Char :=
  match s with
  | [] => (false, [])
  | c :: t => if c = '-' then (true, t) else (false, c :: t)

/-- The token after removing one optional leading minus sign. -/
def stripMinus (s : List Char) : List Char := (negSplit s).2

/-- Digit value of a character as in the num-bigint from_str_radix digit
    normalisation: 0-9, a-z and A-Z map to 0..35, anything else maps to the
    sentinel 255, matching the u8 MAX used for invalid bytes. Every byte of a
    non-ASCII character is at least 0x80 and hence invalid in the Rust code, so
    mapping the whole character to the sentinel is behaviourally identical. -/
def digitVal (c : Char) : Nat :=
  if '0' ≤ c ∧ c ≤ '9' then c.toNat - '0'.toNat
  else if 'a' ≤ c ∧ c ≤ 'z' then c.toNat - 'a'.toNat + 10
  else if 'A' ≤ c ∧ c ≤ 'Z' then c.toNat - 'A'.toNat + 10
  else 255

/-- The digit-collection loop of num-bigint BigUint from_str_radix: underscores
    are skipped, every other character must have digit value below the radix. -/
def digitsLoop (radix : Nat) : List Char → Option (List Nat)
  | [] => some []
  | c :: rest =>
    if c = '_' then digitsLoop radix rest
    else if digitVal c < radix then (digitsLoop radix rest).map (fun v => digitVal c :: v)
    else none

/-- The leading-plus handling of num-bigint BigUint from_str_radix: one leading
    plus sign is stripped unless it is immediately followed by another plus. -/
def plusSplit (s : List Char) : List Char :=
  match s with
  | [] => []
  | c :: t => if c = '+' then (if t.head? = some '+' then c :: t else t) else c :: t

/-- num-bigint BigUint from_str_radix (the external parser called by
    src/util.rs): strips one leading plus, rejects the empty string and a
    leading underscore, then folds the collected digits in the given radix. -/
def biguintFromStrRadix (s : List Char) (radix : Nat) : Option Nat :=
  match plusSplit s with
  | [] => none
  | c :: t =>
    if c = '_' then none
    else (digitsLoop radix (c :: t)).map (fun v => v.foldl (fun acc d => acc * radix + d) 0)

/-- num-bigint BigInt from_str_radix: handles one leading minus sign (kept in
    place when followed by a plus, so that the unsigned layer rejects it) and
    negates the unsigned result. -/
def bigintFromStrRadix (s : List Char) (radix : Nat) : Option Int :=
  match s with
  | [] => (biguintFromStrRadix [] radix).map (fun n => (n : Int))
  | c :: t =>
    if c = '-' then
      if t.head? = some '+' then (biguintFromStrRadix (c :: t) radix).map (fun n => -(n : Int))
      else (biguintFromStrRadix t radix).map (fun n => -(n : Int))
    else (biguintFromStrRadix (c :: t) radix).map (fun n => (n : Int))

/-- Result of ImmediateInt try_from_str (src/util.rs lines 9-12). -/
structure ImmediateInt where
  num : Int
  denom : Option Int
deriving DecidableEq, Repr

/-- ImmediateInt parse_single_number (src/util.rs lines 33-56): strips an
    optional minus; a 0x or 0b head selects radix 16 or 2 and a parse failure
    is an invalid-number error; otherwise the token must be all ASCII digits
    (anything else is a miss, returning ok none) and is parsed in radix 10,
    again turning parse failure into the invalid-number error. All errors of
    the Rust function are the single InvalidNumber value, embedded as unit. -/
def ImmediateInt.parse_single_number (s : List Char) : Except Unit (Option Int) :=
  if (stripMinus s).take 2 = ['0', 'x'] then
    match bigintFromStrRadix ((stripMinus s).drop 2) 16 with
    | some n => .ok (some (if (negSplit s).1 then -n else n))
    | none => .error ()
  else if (stripMinus s).take 2 = ['0', 'b'] then
    match bigintFromStrRadix ((stripMinus s).drop 2) 2 with
    | some n => .ok (some (if (negSplit s).1 then -n else n))
    | none => .error ()
  else if (stripMinus s).all Char.isDigit then
    match bigintFromStrRadix (stripMinus s) 10 with
    | some n => .ok (some (if (negSplit s).1 then -n else n))
    | none => .error ()
  else .ok none

/-- Rust str split_once: splits at the first occurrence of the separator. -/
def splitOnce : List Char → Char → Option (List Char × List Char)
  | [], _ => none
  | c :: rest, sep =>
    if c = sep then some ([], rest)
    else (splitOnce rest sep).map (fun q => (c :: q.1, q.2))

/-- ImmediateInt try_from_str (src/util.rs lines 15-31): an optional rational
    split at the first slash; a numerator miss is a miss, a numerator error
    propagates, and once the numerator parses, a denominator that does not
    parse is the invalid-number error. -/
def ImmediateInt.try_from_str (s : List Char) : Except Unit (Option ImmediateInt) :=
  match splitOnce s '/' with
  | some q =>
    match ImmediateInt.parse_single_number q.1 with
    | .error e => .error e
    | .ok none => .ok none
    | .ok (some numv) =>
      match ImmediateInt.parse_single_number q.2 with
      | .error e => .error e
      | .ok none => .error ()
      | .ok (some denomv) => .ok (some ⟨numv, some denomv⟩)
  | none =>
    match ImmediateInt.parse_single_number s with
    | .error e => .error e
    | .ok none => .ok none
    | .ok (some numv) => .ok (some ⟨numv, none⟩)

/-- Hexadecimal digit in the sense of the spec grammar of section 4.5. -/
def isHexDigitChar (c : Char) : Bool :=
  c.isDigit || ('a' ≤ c && c ≤ 'f') || ('A' ≤ c && c ≤ 'F')

/-- Binary digit in the sense of the spec grammar of section 4.5. -/
def isBinDigitChar (c : Char) : Bool := c = '0' || c = '1'

/-- Written from the words of spec section 4.5, for comparison with the code:
    an optional minus sign followed by 0x plus hexadecimal digits, 0b plus
    binary digits, or a nonempty all-ASCII-digit decimal. -/
def specSingleNumber (s : List Char) : Prop :=
  ((stripMinus s).take 2 = ['0', 'x'] ∧ (stripMinus s).drop 2 ≠ [] ∧
    ((stripMinus s).drop 2).all isHexDigitChar = true) ∨
  ((stripMinus s).take 2 = ['0', 'b'] ∧ (stripMinus s).drop 2 ≠ [] ∧
    ((stripMinus s).drop 2).all isBinDigitChar = true) ∨
  (stripMinus s ≠ [] ∧ (stripMinus s).all Char.isDigit = true)

instance (s : List Char) : Decidable (specSingleNumber s) := by
  unfold specSingleNumber; infer_instance

/-- Written from the words of spec section 4.5: a single number, or a rational
    N/D split at the first slash with both sides accepted independently. -/
def specNumberGrammar (s : List Char) : Prop :=
  match splitOnce s '/' with
  | some q => specSingleNumber q.1 ∧ specSingleNumber q.2
  | none => specSingleNumber s

instance (s : List Char) : Decidable (specNumberGrammar s) := by
  unfold specNumberGrammar
  rcases hq : splitOnce s '/' with _ | q <;> simp only [] <;> infer_instance

/-- The numerator part of a token: the part before the first slash, or the
    whole token when there is no slash. -/
def numeratorPart (s : List Char) : List Char :=
  match splitOnce s '/' with
  | some q => q.1
  | none => s

/-- The miss condition of the parser, phrased over the shape of the token: the
    numerator side, after the optional minus, neither starts with 0x nor with
    0b and is not made of ASCII digits only. -/
def missSingleNumber (s : List Char) : Prop :=
  (stripMinus s).take 2 ≠ ['0', 'x'] ∧ (stripMinus s).take 2 ≠ ['0', 'b'] ∧
    (stripMinus s).all Char.isDigit = false

instance (s : List Char) : Decidable (missSingleNumber s) := by
  unfold missSingleNumber; infer_instance

/-- The Subtokens iterator of src/core/lexer.rs lines 132-143, with fuel equal
    to the character count: yields the token, then repeatedly the token with
    its last character dropped, down to the one-character head. Dropping the
    trailing character via char_indices next_back is dropping the last list
    element here, hence every subtoken ends on a utf8 character boundary. -/
def subtokensGo : Nat → List Char → List (List Char)
  | 0, _ => []
  | _ + 1, [] => []
  | fuel + 1, c :: t => (c :: t) :: subtokensGo fuel (c :: t).dropLast

/-- Token subtokens (src/core/lexer.rs lines 123-125). -/
def subtokens (l : List Char) : List (List Char) := subtokensGo l.length l

/-- Token delta (src/core/lexer.rs lines 127-129): the byte length difference
    between the token and a subtoken. -/
def Token.delta (t sub : List Char) : Nat := utf8Len t - utf8Len sub

/-- Outcome of the token-resolution portion of InterpreterCont run. -/
inductive Resolved (α : Type) where
  | entry (e : α) (rewind : Nat)
  | spaced (e : α)
  | number (v : ImmediateInt)
  | undefined
  | invalidNumber

/-- The token-resolution portion of InterpreterCont run (src/core/cont.rs
    lines 98-139), abstracted over the dictionary as a lookup function and the
    entry type: first dictionary hit among the subtokens, longest first, with
    the rewind set to the byte delta; then the lookup of the token with a
    trailing space; then the number parse, whose error propagates and whose
    miss becomes the undefined-word error. -/
def resolveToken {α : Type} (dict : List Char → Option α) (t : List Char) : Resolved α :=
  match (subtokens t).findSome? (fun sub => (dict sub).map (fun e => (sub, e))) with
  | some p => .entry p.2 (Token.delta t p.1)
  | none =>
    match dict (t ++ [' ']) with
    | some e => .spaced e
    | none =>
      match ImmediateInt.try_from_str t with
      | .error _ => .invalidNumber
      | .ok (some v) => .number v
      | .ok none => .undefined

/-- State of one source block in the lexer (src/core/lexer.rs lines 162-180).
    The unread rest of the input is embedded as the list of lines that
    read_line would return, in order; byte offsets are embedded as utf8
    byte counts into the current line. -/
structure SourceBlockState where
  buffer : List (List Char)
  line : List Char
  line_offset : Nat
  prev_line_offset : Nat
  line_number : Option Nat
deriving Repr

/-- SourceBlockState read_line (src/core/lexer.rs lines 276-289): resets the
    offsets, clears the line, reads the next line when one remains (the flag
    is the n > 0 test of the Rust code) and counts lines even at end of
    input. -/
def SourceBlockState.read_line (b : SourceBlockState) : Bool × SourceBlockState :=
  match b.buffer with
  | [] =>
    (false, { b with prev_line_offset := 0, line_offset := 0, line := [],
                     line_number := some (match b.line_number with
                                          | some k => k + 1
                                          | none => 0) })
  | l :: rest =>
    (true, { b with prev_line_offset := 0, line_offset := 0, line := l, buffer := rest,
                    line_number := some (match b.line_number with
                                         | some k => k + 1
                                         | none => 0) })

/-- The characters of a line strictly after a given utf8 byte offset. On a
    character boundary this is the str slice the Rust code takes; off a
    boundary the Rust slice panics, and this embedding returns a junk suffix
    never relied upon. -/
def charsFromByte : List Char → Nat → List Char
  | [], _ => []
  | c :: rest, o => if o = 0 then c :: rest else charsFromByte rest (o - c.utf8Size)

/-- Whether scan_word and scan_until must read a fresh line first
    (src/core/lexer.rs lines 187 and 209): the line is empty or the offset
    has reached its byte length. -/
def SourceBlockState.needsLine (b : SourceBlockState) : Prop :=
  b.line = [] ∨ utf8Len b.line ≤ b.line_offset

instance (b : SourceBlockState) : Decidable b.needsLine := by
  unfold SourceBlockState.needsLine; infer_instance

/-- The in-line part of SourceBlockState scan_word (src/core/lexer.rs lines
    191-202): skip whitespace, then take the run up to the next whitespace;
    an empty run means the line is exhausted and the loop continues. Returns
    the token and the new byte offset. -/
def wordInLine (line : List Char) (off : Nat) : Option (List Char × Nat) :=
  match ((charsFromByte line off).dropWhile Char.isWhitespace).takeWhile
      (fun c => !c.isWhitespace) with
  | [] => none
  | c :: t =>
    some (c :: t,
      off + utf8Len ((charsFromByte line off).takeWhile Char.isWhitespace) + utf8Len (c :: t))

/-- The line-reading loop of SourceBlockState scan_word, with fuel equal to
    the number of buffered lines: read a line (none at end of input), try to
    take a word from it, otherwise loop. The zero-fuel fallthrough is
    unreachable because read_line consumes one buffered line per round. -/
def scanWordGo : Nat → SourceBlockState → Option (List Char) × SourceBlockState
  | fuel, b =>
    match SourceBlockState.read_line b with
    | (false, b1) => (none, b1)
    | (true, b1) =>
      match wordInLine b1.line 0 with
      | some (t, off) => (some t, { b1 with line_offset := off })
      | none =>
        match fuel with
        | 0 => (none, { b1 with line_offset := utf8Len b1.line })
        | fuel + 1 => scanWordGo fuel { b1 with line_offset := utf8Len b1.line }

/-- SourceBlockState scan_word (src/core/lexer.rs lines 183-204). -/
def SourceBlockState.scan_word (b0 : SourceBlockState) : Option (List Char) × SourceBlockState :=
  let b := { b0 with prev_line_offset := b0.line_offset }
  if b.needsLine then scanWordGo b.buffer.length b
  else
    match wordInLine b.line b.line_offset with
    | some (t, off) => (some t, { b with line_offset := off })
    | none => scanWordGo b.buffer.length { b with line_offset := utf8Len b.line }

/-- The search step of SourceBlockState scan_until after the line is in place
    (src/core/lexer.rs lines 213-230): the token is the run before the first
    delimiter in the rest of the line; when a delimiter was found, skip_symbol
    consumes it, otherwise the offset stops at the end of the line and the
    scan reports no match. -/
def scanUntilCore (b : SourceBlockState) (p : Char → Bool) :
    Option (List Char) × SourceBlockState :=
  let sfx := charsFromByte b.line b.line_offset
  let tok := sfx.takeWhile (fun c => !(p c))
  if tok.length < sfx.length then
    let off2 := b.line_offset + utf8Len tok + utf8Len ((sfx.drop tok.length).take 1)
    (some tok, { b with line_offset := off2 })
  else
    (none, { b with line_offset := b.line_offset + utf8Len tok })

/-- SourceBlockState scan_until (src/core/lexer.rs lines 206-231). -/
def SourceBlockState.scan_until (b0 : SourceBlockState) (p : Char → Bool) :
    Option (List Char) × SourceBlockState :=
  let b := { b0 with prev_line_offset := b0.line_offset }
  if b.needsLine then
    match SourceBlockState.read_line b with
    | (false, b1) => (none, b1)
    | (true, b1) => scanUntilCore b1 p
  else scanUntilCore b p

/-- The window that one scan_until call searches: the rest of the current
    line, or the next buffered line when the current line is empty or
    exhausted, or nothing at end of input. -/
def scanWindow (b : SourceBlockState) : Option (List Char) :=
  if b.needsLine then b.buffer.head? else some (charsFromByte b.line b.line_offset)

/-- SourceBlockState rewind (src/core/lexer.rs lines 233-235) subtracts the
    given byte count from the current offset with a plain usize subtraction;
    the none result embeds the underflowing subtraction, which is not a valid
    execution of the Rust code. -/
def SourceBlockState.rewind (b : SourceBlockState) (n : Nat) : Option SourceBlockState :=
  if n ≤ b.line_offset then some { b with line_offset := b.line_offset - n } else none

/-- The lexer: a stack of source blocks, the head being the top (the last
    element of the Rust vector). -/
structure Lexer where
  blocks : List SourceBlockState

/-- Lexer scan_word (src/core/lexer.rs lines 33-38): none when no block
    remains, otherwise scan on the top block. -/
def Lexer.scan_word (lx : Lexer) : Option (List Char) × Lexer :=
  match lx.blocks with
  | [] => (none, lx)
  | b :: rest =>
    match SourceBlockState.scan_word b with
    | (r, b1) => (r, ⟨b1 :: rest⟩)

/-- Lexer scan_until (src/core/lexer.rs lines 59-65): an empty block stack is
    the unexpected-EOF error (use_last_block), and a block-level miss is the
    unexpected-EOF error as well. -/
def Lexer.scan_until (lx : Lexer) (p : Char → Bool) :
    Except Unit (List Char × Lexer) :=
  match lx.blocks with
  | [] => .error ()
  | b :: rest =>
    match SourceBlockState.scan_until b p with
    | (some tok, b1) => .ok (tok, ⟨b1 :: rest⟩)
    | (none, _) => .error ()

/-- Lexer scan_until_delimiter (src/core/lexer.rs lines 49-57): like
    scan_until with the delimiter character, except that a block-level miss
    with the null delimiter yields the empty token instead of the error. The
    empty block stack is still the unexpected-EOF error of use_last_block. -/
def Lexer.scan_until_delimiter (lx : Lexer) (d : Char) :
    Except Unit (List Char × Lexer) :=
  match lx.blocks with
  | [] => .error ()
  | b :: rest =>
    match SourceBlockState.scan_until b (fun c => c == d) with
    | (some tok, b1) => .ok (tok, ⟨b1 :: rest⟩)
    | (none, b1) => if d.toNat = 0 then .ok ([], ⟨b1 :: rest⟩) else .error ()

/-- Lexer rewind (src/core/lexer.rs lines 67-71): a rewind with no blocks is
    a no-op; otherwise the top block rewinds. -/
def Lexer.rewind (lx : Lexer) (n : Nat) : Option Lexer :=
  match lx.blocks with
  | [] => some lx
  | b :: rest => (SourceBlockState.rewind b n).map (fun b1 => ⟨b1 :: rest⟩)

namespace fift

/-- The continuation variants of src/core/cont.rs that the claims range over:
    SeqCont, ListCont (its word list inlined as the list of items), TimesCont,
    UntilCont, WhileCont, and IntLitCont as the observable leaf. -/
inductive Cont where
  | seq (first second : Option Cont)
  | list (items : List Cont) (after : Option Cont) (pos : Nat)
  | times (body after : Option Cont) (count : Nat)
  | untilCont (body after : Option Cont)
  | whileCont (condition body after : Option Cont) (running_body : Bool)
  | intLit (n : Int)

/-- Modelled from the spec: the slice of the Context (spec section 3) the
    claims need, the operand stack (integers, as pushed by IntLitCont) and the
    next continuation slot. -/
structure Ctx where
  stack : List Int
  next : Option Cont

/-- Modelled from the spec: pop_bool of the external stack layer (spec
    section 6); pops the top integer, nonzero read as true. -/
def popBool (st : List Int) : Except Unit (Bool × List Int) :=
  match st with
  | [] => .error ()
  | n :: rest => .ok (n != 0, rest)

/-- SeqCont make (src/core/cont.rs lines 279-287): collapses to the first
    continuation when the second is absent. -/
def SeqCont.make (first second : Option Cont) : Option Cont :=
  match second with
  | none => first
  | some s => some (.seq first (some s))

/-- Context insert_before_next (src/core/cont.rs lines 624-636): takes the
    pending next out of the context and folds it behind the given slot; the
    result is the new slot value. -/
def insert_before_next (ctxnext slot : Option Cont) : Option Cont :=
  match ctxnext with
  | none => slot
  | some n =>
    match slot with
    | some prev => some (.seq (some prev) (some n))
    | none => some n

/-- One step of a continuation: the run methods of src/core/cont.rs, with the
    shared flag playing the role of the Rc get_mut test (shared means the
    reference count is above one, so the allocate branch runs; unique means
    the in-place mutation branch runs). Returns the continuation to jump to
    and the updated context. -/
def step (shared : Bool) (c : Cont) (ctx : Ctx) : Except Unit (Option Cont × Ctx) :=
  match c with
  | .intLit n => .ok (none, { ctx with stack := n :: ctx.stack })
  | .seq f s =>
    if shared then .ok (f, { ctx with next := SeqCont.make s ctx.next })
    else
      match ctx.next with
      | none => .ok (f, { ctx with next := s })
      | some n => .ok (f, { ctx with next := some (.seq s (some n)) })
  | .list items after pos =>
    match items[pos]? with
    | none => .ok (ctx.next, { ctx with next := none })
    | some current =>
      if shared then
        match ctx.next with
        | some n =>
          let node : Cont := .list items (SeqCont.make after (some n)) (pos + 1)
          .ok (some current, { ctx with next := some node })
        | none =>
          if pos + 1 ≥ items.length then .ok (some current, { ctx with next := after })
          else .ok (some current, { ctx with next := some (.list items after (pos + 1)) })
      else
        let after1 := insert_before_next ctx.next after
        if pos + 1 ≥ items.length then
          .ok (some current, { ctx with next := after1 })
        else
          .ok (some current, { ctx with next := some (.list items after1 (pos + 1)) })
  | .times body after count =>
    if shared then
      let next1 := SeqCont.make after ctx.next
      if count > 1 then
        .ok (body, { ctx with next := some (.times body next1 (count - 1)) })
      else .ok (body, { ctx with next := next1 })
    else
      let after1 := insert_before_next ctx.next after
      if count > 1 then
        .ok (body, { ctx with next := some (.times body after1 (count - 1)) })
      else .ok (body, { ctx with next := after1 })
  | .untilCont body after =>
    match popBool ctx.stack with
    | .error e => .error e
    | .ok (b, st) =>
      if b then .ok (after, { ctx with stack := st })
      else
        if shared then
          match ctx.next with
          | some n =>
            let node : Cont := .untilCont body (SeqCont.make after (some n))
            .ok (body, { ctx with stack := st, next := some node })
          | none => .ok (body, { ctx with stack := st, next := some (.untilCont body after) })
        else
          let node : Cont := .untilCont body (insert_before_next ctx.next after)
          .ok (body, { ctx with stack := st, next := some node })
  | .whileCont condition body after rb =>
    if rb then
      match popBool ctx.stack with
      | .error e => .error e
      | .ok (b, st) =>
        if b then
          if shared then
            let node : Cont := .whileCont condition body (SeqCont.make after ctx.next) false
            .ok (body, { ctx with stack := st, next := some node })
          else
            let node : Cont := .whileCont condition body (insert_before_next ctx.next after) false
            .ok (body, { ctx with stack := st, next := some node })
        else .ok (after, { ctx with stack := st })
    else
      if shared then
        let node : Cont := .whileCont condition body (SeqCont.make after ctx.next) true
        .ok (condition, { ctx with next := some node })
      else
        let node : Cont := .whileCont condition body (insert_before_next ctx.next after) true
        .ok (condition, { ctx with next := some node })

/-- Modelled from the spec: the trampoline driver of spec section 4.1 (the
    driver itself is outside src), with fuel keeping the embedding total
    (none is fuel exhaustion). The boolean list is an ownership oracle: each
    step of a node consumes one entry telling whether that node was shared
    (reference count above one, allocate branch) or uniquely owned (in-place
    branch); an exhausted oracle means uniquely owned. -/
def runO : Nat → List Bool → Option Cont → Ctx → Option (Except Unit Ctx)
  | 0, _, _, _ => none
  | fuel + 1, bits, none, ctx =>
    match ctx.next with
    | none => some (.ok ctx)
    | some c => runO fuel bits (some c) { ctx with next := none }
  | fuel + 1, bits, some c, ctx =>
    match step (bits.headD false) c ctx with
    | .error e => some (.error e)
    | .ok (oc, ctx1) => runO fuel bits.tail oc ctx1

/-- The driver with every node uniquely owned: the pure-value semantics. -/
def runU (fuel : Nat) (c : Option Cont) (ctx : Ctx) : Option (Except Unit Ctx) :=
  runO fuel [] c ctx

/-- A run (unique-ownership semantics) terminates at the given result. -/
def runsFrom (oc : Option Cont) (ctx : Ctx) (r : Except Unit Ctx) : Prop :=
  ∃ fuel, runU fuel oc ctx = some r

/-- The up method of the continuation trait (src/core/cont.rs lines 231-233,
    310-312, 370-372, 422-424, 489-491): the after or second field for the
    composite variants, none for the leaves. -/
def Cont.up : Cont → Option Cont
  | .seq _ s => s
  | .list _ a _ => a
  | .times _ a _ => a
  | .untilCont _ a => a
  | .whileCont _ _ a _ => a
  | .intLit _ => none

/-- The up chain of a continuation, starting at the continuation itself. -/
def Cont.chain (c : Cont) : List Cont :=
  c :: (match h : c.up with
        | some u => Cont.chain u
        | none => [])
termination_by sizeOf c
decreasing_by
  cases c <;> simp only [Cont.up] at h <;> first
  | exact Option.noConfusion h
  | (subst h; simp; omega)

/-- The loop of display_backtrace (src/core/cont.rs lines 34-46) from level i:
    writes one level for the continuation; when the up pointer is absent the
    display ends with no marker; at level 16 with an up pointer present the
    fixed more-levels marker is written instead of any further level. -/
def btGo (c : Cont) (i : Nat) : List (Nat × Cont) × Bool :=
  match h : c.up with
  | none => ([(i, c)], false)
  | some u =>
    if 16 ≤ i then ([(i, c)], true)
    else
      match btGo u (i + 1) with
      | (rest, m) => ((i, c) :: rest, m)
termination_by sizeOf c
decreasing_by
  cases c <;> simp only [Cont.up] at h <;> first
  | exact Option.noConfusion h
  | (subst h; simp; omega)

/-- The observable structure of display_backtrace (src/core/cont.rs lines
    27-50): the written levels, each the level index paired with the
    continuation dumped at that level, and whether the more-levels marker was
    written after them. -/
def display_backtrace (c : Cont) : List (Nat × Cont) × Bool := btGo c 1

end fift

/-! Theorems -/

theorem parse_single_number_none_iff (s : List Char) :
    ImmediateInt.parse_single_number s = .ok none ↔ missSingleNumber s := by
  unfold ImmediateInt.parse_single_number missSingleNumber
  by_cases hx : (stripMinus s).take 2 = ['0', 'x']
  · simp only [hx, if_true]
    cases hb : bigintFromStrRadix ((stripMinus s).drop 2) 16 <;> simp [hx]
  · simp only [hx, if_false]
    by_cases hbp : (stripMinus s).take 2 = ['0', 'b']
    · simp only [hbp, if_true]
      cases hb : bigintFromStrRadix ((stripMinus s).drop 2) 2 <;> simp [hbp]
    · simp only [hbp, if_false]
      by_cases hd : (stripMinus s).all Char.isDigit = true
      · simp only [hd, if_true]
        cases hb : bigintFromStrRadix (stripMinus s) 10 <;> simp [hd]
      · simp only [hd, if_false]
        simp [hx, hbp, Bool.not_eq_true] at hd ⊢

theorem try_from_str_none_iff (s : List Char) :
    ImmediateInt.try_from_str s = .ok none ↔ missSingleNumber (numeratorPart s) := by
  unfold ImmediateInt.try_from_str numeratorPart
  cases hsp : splitOnce s '/' with
  | none =>
    simp only []
    rw [← parse_single_number_none_iff]
    cases hp : ImmediateInt.parse_single_number s with
    | error e => simp
    | ok o => cases o <;> simp
  | some q =>
    simp only []
    rw [← parse_single_number_none_iff]
    cases hp : ImmediateInt.parse_single_number q.1 with
    | error e => simp
    | ok o =>
      cases o with
      | none => simp
      | some nv =>
        cases hp2 : ImmediateInt.parse_single_number q.2 with
        | error e => simp [hp]
        | ok o2 => cases o2 <;> simp [hp]

theorem hex_digitVal {c : Char} (h : isHexDigitChar c = true) :
    digitVal c < 16 ∧ ¬ c = '+' ∧ ¬ c = '_' ∧ ¬ c = '-' := by
  unfold isHexDigitChar at h
  simp only [Bool.or_eq_true] at h
  have hb : (48 ≤ c.toNat ∧ c.toNat ≤ 57) ∨ (97 ≤ c.toNat ∧ c.toNat ≤ 102) ∨
      (65 ≤ c.toNat ∧ c.toNat ≤ 70) := by
    rcases h with (h | h) | h
    · simp [Char.isDigit] at h
      exact Or.inl ⟨h.1, h.2⟩
    · simp only [Bool.and_eq_true, decide_eq_true_eq] at h
      exact Or.inr (Or.inl ⟨h.1, h.2⟩)
    · simp only [Bool.and_eq_true, decide_eq_true_eq] at h
      exact Or.inr (Or.inr ⟨h.1, h.2⟩)
  have hne : ¬ c = '+' ∧ ¬ c = '_' ∧ ¬ c = '-' := by
    refine ⟨?_, ?_, ?_⟩ <;> rintro rfl <;> exact absurd hb (by decide)
  refine ⟨?_, hne⟩
  unfold digitVal
  have h0 : ('0').toNat = 48 := rfl
  have ha : ('a').toNat = 97 := rfl
  have hA : ('A').toNat = 65 := rfl
  rcases hb with h1 | h1 | h1
  · rw [if_pos (show ('0' ≤ c ∧ c ≤ '9') from ⟨h1.1, h1.2⟩)]
    omega
  · rw [if_neg (show ¬ ('0' ≤ c ∧ c ≤ '9') from fun hc => by
        have h2 : c.toNat ≤ 57 := hc.2
        omega)]
    rw [if_pos (show ('a' ≤ c ∧ c ≤ 'z') from ⟨h1.1, show c.toNat ≤ 122 by omega⟩)]
    omega
  · rw [if_neg (show ¬ ('0' ≤ c ∧ c ≤ '9') from fun hc => by
        have h2 : 48 ≤ c.toNat := hc.1
        have h3 : c.toNat ≤ 57 := hc.2
        omega)]
    rw [if_neg (show ¬ ('a' ≤ c ∧ c ≤ 'z') from fun hc => by
        have h2 : 97 ≤ c.toNat := hc.1
        omega)]
    rw [if_pos (show ('A' ≤ c ∧ c ≤ 'Z') from ⟨h1.1, show c.toNat ≤ 90 by omega⟩)]
    omega

theorem bin_digitVal {c : Char} (h : isBinDigitChar c = true) :
    digitVal c < 2 ∧ ¬ c = '+' ∧ ¬ c = '_' ∧ ¬ c = '-' := by
  unfold isBinDigitChar at h
  simp only [Bool.or_eq_true, decide_eq_true_eq] at h
  rcases h with rfl | rfl <;> exact (by decide)

theorem dec_digitVal {c : Char} (h : c.isDigit = true) :
    digitVal c < 10 ∧ ¬ c = '+' ∧ ¬ c = '_' ∧ ¬ c = '-' := by
  simp [Char.isDigit] at h
  have hb : 48 ≤ c.toNat ∧ c.toNat ≤ 57 := ⟨h.1, h.2⟩
  have hne : ¬ c = '+' ∧ ¬ c = '_' ∧ ¬ c = '-' := by
    refine ⟨?_, ?_, ?_⟩ <;> rintro rfl <;> exact absurd hb (by decide)
  refine ⟨?_, hne⟩
  unfold digitVal
  have h0 : ('0').toNat = 48 := rfl
  rw [if_pos (show ('0' ≤ c ∧ c ≤ '9') from ⟨hb.1, hb.2⟩)]
  omega

theorem digitsLoop_isSome (radix : Nat) :
    ∀ l : List Char, (∀ c ∈ l, digitVal c < radix) → ∃ v, digitsLoop radix l = some v := by
  intro l
  induction l with
  | nil => exact fun _ => ⟨[], rfl⟩
  | cons c rest ih =>
    intro h
    obtain ⟨v, hv⟩ := ih fun x hx => h x (List.mem_cons_of_mem _ hx)
    by_cases hc : c = '_'
    · refine ⟨v, ?_⟩
      unfold digitsLoop
      rw [if_pos hc, hv]
    · refine ⟨digitVal c :: v, ?_⟩
      unfold digitsLoop
      rw [if_neg hc, if_pos (h c (List.mem_cons_self _ _)), hv]
      rfl

theorem biguintFromStrRadix_isSome (radix : Nat) {l : List Char} (h1 : l ≠ [])
    (h2 : ∀ c ∈ l, digitVal c < radix ∧ ¬ c = '+' ∧ ¬ c = '_') :
    ∃ v, biguintFromStrRadix l radix = some v := by
  cases l with
  | nil => exact absurd rfl h1
  | cons c t =>
    have hc := h2 c (List.mem_cons_self _ _)
    have hps : plusSplit (c :: t) = c :: t := by
      simp only [plusSplit]
      rw [if_neg hc.2.1]
    obtain ⟨v, hv⟩ := digitsLoop_isSome radix (c :: t) (fun x hx => (h2 x hx).1)
    refine ⟨v.foldl (fun acc d => acc * radix + d) 0, ?_⟩
    simp only [biguintFromStrRadix, hps]
    rw [if_neg hc.2.2, hv]
    rfl

theorem bigintFromStrRadix_isSome (radix : Nat) {l : List Char} (h1 : l ≠ [])
    (h2 : ∀ c ∈ l, digitVal c < radix ∧ ¬ c = '+' ∧ ¬ c = '_' ∧ ¬ c = '-') :
    ∃ v, bigintFromStrRadix l radix = some v := by
  cases l with
  | nil => exact absurd rfl h1
  | cons c t =>
    simp only [bigintFromStrRadix]
    rw [if_neg (h2 c (List.mem_cons_self _ _)).2.2.2]
    obtain ⟨v, hv⟩ := biguintFromStrRadix_isSome radix (l := c :: t) (by simp)
      (fun x hx => ⟨(h2 x hx).1, (h2 x hx).2.1, (h2 x hx).2.2.1⟩)
    exact ⟨v, by rw [hv]; rfl⟩

theorem parse_single_number_of_spec {s : List Char} (h : specSingleNumber s) :
    ∃ n, ImmediateInt.parse_single_number s = .ok (some n) := by
  unfold ImmediateInt.parse_single_number
  rcases h with ⟨hx, hne, hall⟩ | ⟨hb, hne, hall⟩ | ⟨hne, hall⟩
  · rw [if_pos hx]
    obtain ⟨v, hv⟩ := bigintFromStrRadix_isSome 16 (l := (stripMinus s).drop 2) hne
      (fun c hc => hex_digitVal (List.all_eq_true.mp hall c hc))
    rw [hv]
    exact ⟨_, rfl⟩
  · have hnx : ¬ (stripMinus s).take 2 = ['0', 'x'] := by
      intro hcontra
      rw [hcontra] at hb
      exact absurd hb (by decide)
    rw [if_neg hnx, if_pos hb]
    obtain ⟨v, hv⟩ := bigintFromStrRadix_isSome 2 (l := (stripMinus s).drop 2) hne
      (fun c hc => bin_digitVal (List.all_eq_true.mp hall c hc))
    rw [hv]
    exact ⟨_, rfl⟩
  · have hnx : ¬ (stripMinus s).take 2 = ['0', 'x'] := by
      intro hcontra
      have hmem : 'x' ∈ (stripMinus s).take 2 := by rw [hcontra]; decide
      have : ('x').isDigit = true :=
        List.all_eq_true.mp hall 'x' (List.take_subset _ _ hmem)
      exact absurd this (by decide)
    have hnb : ¬ (stripMinus s).take 2 = ['0', 'b'] := by
      intro hcontra
      have hmem : 'b' ∈ (stripMinus s).take 2 := by rw [hcontra]; decide
      have : ('b').isDigit = true :=
        List.all_eq_true.mp hall 'b' (List.take_subset _ _ hmem)
      exact absurd this (by decide)
    rw [if_neg hnx, if_neg hnb, if_pos hall]
    obtain ⟨v, hv⟩ := bigintFromStrRadix_isSome 10 (l := stripMinus s) hne
      (fun c hc => dec_digitVal (List.all_eq_true.mp hall c hc))
    rw [hv]
    exact ⟨_, rfl⟩

theorem try_from_str_of_spec {s : List Char} (h : specNumberGrammar s) :
    ∃ v, ImmediateInt.try_from_str s = .ok (some v) := by
  unfold ImmediateInt.try_from_str
  unfold specNumberGrammar at h
  cases hsp : splitOnce s '/' with
  | none =>
    simp only [hsp] at h
    obtain ⟨n, hn⟩ := parse_single_number_of_spec h
    exact ⟨⟨n, none⟩, by simp [hn]⟩
  | some q =>
    simp only [hsp] at h
    have h2 : specSingleNumber q.1 ∧ specSingleNumber q.2 := h
    obtain ⟨n1, hn1⟩ := parse_single_number_of_spec h2.1
    obtain ⟨n2, hn2⟩ := parse_single_number_of_spec h2.2
    exact ⟨⟨n1, some n2⟩, by simp [hn1, hn2]⟩

/-- Claim C4, counterexample: the token 0x is rejected by the grammar of spec
    section 4.5, yet try_from_str returns the invalid-number error rather than
    none; and the token 0x-5 is rejected by the grammar yet parses to a value. -/
theorem C4_counterexample :
    ¬ specNumberGrammar ['0', 'x'] ∧
    ImmediateInt.try_from_str ['0', 'x'] = .error () ∧
    ¬ specNumberGrammar ['0', 'x', '-', '5'] ∧
    ImmediateInt.try_from_str ['0', 'x', '-', '5'] = .ok (some ⟨-5, none⟩) :=
  ⟨by decide, rfl, by decide, rfl⟩

/-- Claim C4 (amended): every token accepted by the grammar of spec section
    4.5 parses to a value, and try_from_str returns none (no error) exactly
    when the numerator part, after the optional leading minus, neither starts
    with 0x nor with 0b and contains a non-ASCII-digit character; for all
    remaining tokens the parser returns the invalid-number error, so some
    grammar-rejected tokens error rather than miss, and some grammar-rejected
    tokens (such as 0x-5) still parse. -/
theorem C4_amended (s : List Char) :
    (specNumberGrammar s → ∃ v, ImmediateInt.try_from_str s = .ok (some v)) ∧
    (ImmediateInt.try_from_str s = .ok none ↔ missSingleNumber (numeratorPart s)) :=
  ⟨fun h => try_from_str_of_spec h, try_from_str_none_iff s⟩

/-- Witness for C4_amended at the token 12/34. -/
theorem C4_amended_witness :
    ∃ v, ImmediateInt.try_from_str ['1', '2', '/', '3', '4'] = .ok (some v) :=
  (C4_amended ['1', '2', '/', '3', '4']).1 (by decide)

/-- Claim C5: for a token split as N/D at the first slash, when the numerator
    parses to a value and the denominator does not parse to a value (miss or
    error), try_from_str is the invalid-number error; when the numerator is a
    miss (not a number), the result is a miss and no error is raised. -/
theorem C5_rational_error_paths :
    (∀ (s : List Char) (q : List Char × List Char) (n : Int),
      splitOnce s '/' = some q →
      ImmediateInt.parse_single_number q.1 = .ok (some n) →
      (∀ d : Int, ¬ ImmediateInt.parse_single_number q.2 = .ok (some d)) →
      ImmediateInt.try_from_str s = .error ()) ∧
    (∀ (s : List Char) (q : List Char × List Char),
      splitOnce s '/' = some q →
      ImmediateInt.parse_single_number q.1 = .ok none →
      ImmediateInt.try_from_str s = .ok none) := by
  constructor
  · intro s q n hsp hn hd
    unfold ImmediateInt.try_from_str
    simp only [hsp, hn]
    cases hp2 : ImmediateInt.parse_single_number q.2 with
    | error e => cases e; simp [hp2]
    | ok o2 =>
      cases o2 with
      | none => simp [hp2]
      | some d => exact absurd hp2 (hd d)
  · intro s q hsp hn
    unfold ImmediateInt.try_from_str
    simp only [hsp, hn]

/-- Witness for C5_rational_error_paths at the tokens 3/x and a/2. -/
theorem C5_witness :
    ImmediateInt.try_from_str ['3', '/', 'x'] = .error () ∧
    ImmediateInt.try_from_str ['a', '/', '2'] = .ok none := by
  constructor
  · exact C5_rational_error_paths.1 ['3', '/', 'x'] (['3'], ['x']) 3 rfl rfl
      (fun d hd => by
        rw [show ImmediateInt.parse_single_number ['x'] = .ok none from rfl] at hd
        exact Option.noConfusion (Except.ok.inj hd))
  · exact C5_rational_error_paths.2 ['a', '/', '2'] (['a'], ['2']) rfl rfl

theorem utf8Len_append (a b : List Char) : utf8Len (a ++ b) = utf8Len a + utf8Len b := by
  simp [utf8Len]

theorem utf8Len_dropLast_lt {l : List Char} (h : l ≠ []) : utf8Len l.dropLast < utf8Len l := by
  conv_rhs => rw [← List.dropLast_append_getLast h]
  rw [utf8Len_append]
  have hp := Char.utf8Size_pos (l.getLast h)
  have hs : utf8Len [l.getLast h] = (l.getLast h).utf8Size := by simp [utf8Len]
  omega

theorem subtokensGo_mem :
    ∀ (fuel : Nat) (l s1 : List Char), s1 ∈ subtokensGo fuel l → s1 ≠ [] ∧ ∃ r, s1 ++ r = l := by
  intro fuel
  induction fuel with
  | zero => intro l s1 h; simp [subtokensGo] at h
  | succ fuel ih =>
    intro l s1 h
    cases l with
    | nil => simp [subtokensGo] at h
    | cons c t =>
      simp only [subtokensGo] at h
      rcases List.mem_cons.mp h with rfl | h2
      · exact ⟨by simp, [], by simp⟩
      · obtain ⟨hne, r, hr⟩ := ih _ _ h2
        refine ⟨hne, r ++ [(c :: t).getLast (by simp)], ?_⟩
        rw [← List.append_assoc, hr, List.dropLast_append_getLast]

theorem subtokensGo_utf8Len_le (fuel : Nat) (l s1 : List Char) (h : s1 ∈ subtokensGo fuel l) :
    utf8Len s1 ≤ utf8Len l := by
  obtain ⟨_, r, hr⟩ := subtokensGo_mem fuel l s1 h
  rw [← hr, utf8Len_append]
  omega

theorem subtokensGo_pairwise :
    ∀ (fuel : Nat) (l : List Char),
      List.Pairwise (fun a b => utf8Len b < utf8Len a) (subtokensGo fuel l) := by
  intro fuel
  induction fuel with
  | zero => intro l; simp [subtokensGo]
  | succ fuel ih =>
    intro l
    cases l with
    | nil => simp [subtokensGo]
    | cons c t =>
      simp only [subtokensGo]
      refine List.Pairwise.cons ?_ (ih _)
      intro s1 hs1
      have h1 := subtokensGo_utf8Len_le fuel _ s1 hs1
      have h2 := utf8Len_dropLast_lt (l := c :: t) (by simp)
      omega

theorem subtokensGo_complete :
    ∀ (fuel : Nat) (l s1 : List Char), l.length ≤ fuel → s1 ≠ [] →
      (∃ r, s1 ++ r = l) → s1 ∈ subtokensGo fuel l := by
  intro fuel
  induction fuel with
  | zero =>
    intro l s1 h1 h2 hex
    obtain ⟨r, hr⟩ := hex
    have : l = [] := List.eq_nil_of_length_eq_zero (Nat.le_zero.mp h1)
    subst this
    exact absurd (List.append_eq_nil.mp hr).1 h2
  | succ fuel ih =>
    intro l s1 h1 h2 hex
    obtain ⟨r, hr⟩ := hex
    cases l with
    | nil => exact absurd (List.append_eq_nil.mp hr).1 h2
    | cons c t =>
      simp only [subtokensGo]
      by_cases hs : s1 = c :: t
      · exact hs ▸ List.mem_cons_self _ _
      · refine List.mem_cons_of_mem _ (ih _ _ ?_ h2 ?_)
        · rw [List.length_dropLast]
          simp only [List.length_cons] at h1 ⊢
          omega
        · cases r with
          | nil => exact absurd (by simpa using hr) hs
          | cons x r1 =>
            refine ⟨(x :: r1).dropLast, ?_⟩
            rw [← List.dropLast_append_cons, hr]

theorem subtokens_head {l : List Char} (h : l ≠ []) : (subtokens l).head? = some l := by
  cases l with
  | nil => exact absurd rfl h
  | cons c t => simp [subtokens, subtokensGo]

theorem findSome?_decomp {α β : Type} (f : α → Option β) :
    ∀ (L : List α) (x : β), L.findSome? f = some x →
      ∃ pre a suf, L = pre ++ a :: suf ∧ f a = some x ∧ ∀ y ∈ pre, f y = none := by
  intro L
  induction L with
  | nil => intro x h; simp [List.findSome?] at h
  | cons a L ih =>
    intro x h
    cases hfa : f a with
    | some b =>
      simp only [List.findSome?_cons, hfa] at h
      exact ⟨[], a, L, rfl, by rw [hfa]; exact h, by simp⟩
    | none =>
      simp only [List.findSome?_cons, hfa] at h
      obtain ⟨pre, a1, suf, hL, hfa1, hpre⟩ := ih x h
      refine ⟨a :: pre, a1, suf, by rw [hL]; rfl, hfa1, ?_⟩
      intro y hy
      rcases List.mem_cons.mp hy with rfl | hy2
      · exact hfa
      · exact hpre y hy2

theorem findSome?_isSome_of_mem {α β : Type} (f : α → Option β) :
    ∀ (L : List α) (a : α), a ∈ L → (f a).isSome → (L.findSome? f).isSome := by
  intro L
  induction L with
  | nil => intro a ha; simp at ha
  | cons x L ih =>
    intro a ha hfa
    rcases List.mem_cons.mp ha with rfl | ha2
    · cases hx : f a with
      | some b => simp [List.findSome?_cons, hx]
      | none => rw [hx] at hfa; simp at hfa
    · cases hx : f x with
      | some b => simp [List.findSome?_cons, hx]
      | none =>
        simp only [List.findSome?_cons, hx]
        exact ih a ha2 hfa

/-- Claim C3: token resolution tries exactly the nonempty prefixes of the
    token (each on a character boundary, since whole characters are dropped),
    longest first, with the token itself first; when any subtoken is in the
    dictionary, the longest such prefix is chosen, its entry is returned, the
    rewind is exactly the utf8 byte-length difference between the token and
    the chosen prefix, and neither the space-suffixed lookup nor the number
    parse runs. -/
theorem C3_subtoken_resolution {α : Type} (dict : List Char → Option α) (t : List Char) :
    (∀ s1 ∈ subtokens t, s1 ≠ [] ∧ ∃ r, s1 ++ r = t) ∧
    (∀ s1 : List Char, s1 ≠ [] → (∃ r, s1 ++ r = t) → s1 ∈ subtokens t) ∧
    (t ≠ [] → (subtokens t).head? = some t) ∧
    List.Pairwise (fun a b => utf8Len b < utf8Len a) (subtokens t) ∧
    ((∃ s1 ∈ subtokens t, (dict s1).isSome) →
      ∃ s1 e, s1 ∈ subtokens t ∧ dict s1 = some e ∧
        resolveToken dict t = .entry e (utf8Len t - utf8Len s1) ∧
        ∀ s2 ∈ subtokens t, utf8Len s1 < utf8Len s2 → dict s2 = none) := by
  refine ⟨fun s1 hs1 => subtokensGo_mem _ _ _ hs1,
          fun s1 h1 h2 => subtokensGo_complete _ _ _ le_rfl h1 h2,
          fun h => subtokens_head h,
          subtokensGo_pairwise _ _, ?_⟩
  rintro ⟨s0, hs0, hd0⟩
  have hsome : ((subtokens t).findSome?
      (fun sub => (dict sub).map (fun e => (sub, e)))).isSome := by
    apply findSome?_isSome_of_mem _ _ s0 hs0
    rcases Option.isSome_iff_exists.mp hd0 with ⟨e, he⟩
    simp [he]
  rcases Option.isSome_iff_exists.mp hsome with ⟨p, hp⟩
  obtain ⟨pre, a1, suf, hL, hfa1, hpre⟩ := findSome?_decomp _ _ _ hp
  rcases Option.map_eq_some'.mp hfa1 with ⟨e1, he1, hpe⟩
  subst hpe
  refine ⟨a1, e1, ?_, he1, ?_, ?_⟩
  · rw [hL]
    exact List.mem_append.mpr (Or.inr (List.mem_cons_self _ _))
  · unfold resolveToken
    simp only [hp]
    rfl
  · intro s2 hs2 hlt
    rw [hL] at hs2
    rcases List.mem_append.mp hs2 with h2 | h2
    · exact Option.map_eq_none'.mp (hpre s2 h2)
    · rcases List.mem_cons.mp h2 with rfl | h2
      · omega
      · have hpw := subtokensGo_pairwise t.length t
        have hpw2 : List.Pairwise (fun a b => utf8Len b < utf8Len a) (pre ++ a1 :: suf) := by
          rw [← hL]; exact hpw
        have h3 := (List.pairwise_cons.mp (List.pairwise_append.mp hpw2).2.1).1 s2 h2
        omega

/-- Witness for C3_subtoken_resolution: a dictionary holding only the prefix
    ab resolves the token abc to that entry and rewinds by one byte. -/
theorem C3_witness :
    ∃ s1 e, s1 ∈ subtokens ['a', 'b', 'c'] ∧
      (fun w => if w = ['a', 'b'] then some 0 else none) s1 = some e ∧
      resolveToken (fun w => if w = ['a', 'b'] then some 0 else none) ['a', 'b', 'c'] =
        .entry e (utf8Len ['a', 'b', 'c'] - utf8Len s1) ∧
      ∀ s2 ∈ subtokens ['a', 'b', 'c'], utf8Len s1 < utf8Len s2 →
        (fun w => if w = ['a', 'b'] then some 0 else none) s2 = none :=
  (C3_subtoken_resolution (fun w => if w = ['a', 'b'] then some 0 else none)
    ['a', 'b', 'c']).2.2.2.2 (by decide)

theorem Cont_up_sizeOf {c u : fift.Cont} (h : c.up = some u) : sizeOf u < sizeOf c := by
  cases c <;> simp only [fift.Cont.up] at h <;> first
  | exact Option.noConfusion h
  | (subst h; simp; omega)

theorem chain_up_none {c : fift.Cont} (h : c.up = none) : c.chain = [c] := by
  rw [fift.Cont.chain]
  split
  · rename_i u2 heq
    rw [h] at heq
    exact Option.noConfusion heq
  · rfl

theorem chain_up_some {c u : fift.Cont} (h : c.up = some u) : c.chain = c :: u.chain := by
  rw [fift.Cont.chain]
  split
  · rename_i u2 heq
    rw [h] at heq
    obtain rfl := Option.some.inj heq
    rfl
  · rename_i heq
    rw [h] at heq
    exact Option.noConfusion heq

theorem chain_length_pos (c : fift.Cont) : 1 ≤ c.chain.length := by
  cases hu : c.up with
  | none => rw [chain_up_none hu]; simp
  | some u => rw [chain_up_some hu]; simp

theorem btGo_up_none {c : fift.Cont} (h : c.up = none) (i : Nat) :
    fift.btGo c i = ([(i, c)], false) := by
  rw [fift.btGo]
  split
  · rfl
  · rename_i u2 heq
    rw [h] at heq
    exact Option.noConfusion heq

theorem btGo_up_some {c u : fift.Cont} (h : c.up = some u) (i : Nat) :
    fift.btGo c i = if 16 ≤ i then ([(i, c)], true)
      else ((i, c) :: (fift.btGo u (i + 1)).1, (fift.btGo u (i + 1)).2) := by
  rw [fift.btGo]
  split
  · rename_i heq
    rw [h] at heq
    exact Option.noConfusion heq
  · rename_i u2 heq
    rw [h] at heq
    obtain rfl := Option.some.inj heq
    split <;> rfl

theorem btGo_spec (c : fift.Cont) (i k : Nat) (hik : i + k = 17) (hk : 1 ≤ k) :
    fift.btGo c i = (List.enumFrom i ((fift.Cont.chain c).take k),
      decide (k < (fift.Cont.chain c).length)) := by
  cases hu : c.up with
  | none =>
    rw [chain_up_none hu, btGo_up_none hu]
    obtain ⟨k1, rfl⟩ : ∃ k1, k = k1 + 1 := ⟨k - 1, by omega⟩
    simp [List.enumFrom]
  | some u =>
    have hlt : sizeOf u < sizeOf c := Cont_up_sizeOf hu
    rw [chain_up_some hu, btGo_up_some hu]
    by_cases h16 : 16 ≤ i
    · have hi : i = 16 := by omega
      have hk1 : k = 1 := by omega
      subst hi; subst hk1
      rw [if_pos (by omega)]
      have hpos := chain_length_pos u
      simp [List.enumFrom]
      omega
    · rw [if_neg h16]
      have hrec := btGo_spec u (i + 1) (k - 1) (by omega) (by omega)
      rw [hrec]
      obtain ⟨k2, rfl⟩ : ∃ k2, k = k2 + 1 := ⟨k - 1, by omega⟩
      simp only [Nat.add_sub_cancel, List.take_succ_cons, List.enumFrom, List.length_cons]
      rw [Prod.mk.injEq]
      refine ⟨rfl, ?_⟩
      simp only [decide_eq_decide]
      omega
termination_by sizeOf c
decreasing_by exact hlt

/-- Claim C8: the backtrace shows one level per continuation along the up
    chain, at most 16 of them (the first 16 elements of the chain, numbered
    from 1); the more-levels marker is written exactly when a 17th chain
    element exists, and no further frames are written. -/
theorem C8_backtrace_bound (c : fift.Cont) :
    (fift.display_backtrace c).1 = List.enumFrom 1 ((fift.Cont.chain c).take 16) ∧
    ((fift.display_backtrace c).2 = true ↔ 16 < (fift.Cont.chain c).length) ∧
    (fift.display_backtrace c).1.length ≤ 16 := by
  have h := btGo_spec c 1 16 (by omega) (by omega)
  unfold fift.display_backtrace
  rw [h]
  refine ⟨rfl, by simp, ?_⟩
  simp [List.length_take]

theorem replicate_append_cons (k : Nat) (b : Int) (σ : List Int) :
    List.replicate k b ++ b :: σ = List.replicate (k + 1) b ++ σ := by
  induction k with
  | zero => rfl
  | succ k ih => simp only [List.replicate_succ, List.cons_append, ih]

theorem times_run_aux (b : Int) :
    ∀ (k : Nat) (A : Option fift.Cont) (σ : List Int) (r : Except Unit fift.Ctx),
      fift.runsFrom none ⟨List.replicate (k + 1) b ++ σ, A⟩ r →
      fift.runsFrom (some (.times (some (.intLit b)) A (k + 1))) ⟨σ, none⟩ r := by
  intro k
  induction k with
  | zero =>
    intro A σ r hpre
    obtain ⟨n, hn⟩ := hpre
    exact ⟨n + 2, hn⟩
  | succ k ih =>
    intro A σ r hpre
    obtain ⟨n, hn⟩ := hpre
    have step1 := ih A (b :: σ) r ⟨n, by rw [replicate_append_cons]; exact hn⟩
    obtain ⟨mf, hm⟩ := step1
    refine ⟨mf + 3, ?_⟩
    show fift.runO (mf + 3) [] (some (.times (some (.intLit b)) A (k + 1 + 1)))
      ⟨σ, none⟩ = some r
    simp only [fift.runO, fift.step, fift.insert_before_next, List.headD, List.tail,
      Bool.false_eq_true, if_false]
    rw [if_pos (show k + 1 + 1 > 1 by omega)]
    simp only [fift.runO, fift.step, List.headD, List.tail, Nat.add_sub_cancel,
      Bool.false_eq_true, if_false]
    exact hm

/-- Claim C6: a TimesCont entered with a positive count runs its body exactly
    count times, then its after exactly once immediately after the last body
    run, then the pending next of the context; shown for integer-literal body,
    after and pending next over an arbitrary starting stack, where the run
    pushes the body literal count times, then the after literal, then the
    pending literal. -/
theorem C6_times_exact_count (count : Nat) (b a m : Int) (σ : List Int) (h : 1 ≤ count) :
    fift.runsFrom (some (.times (some (.intLit b)) (some (.intLit a)) count))
      ⟨σ, some (.intLit m)⟩
      (.ok ⟨m :: a :: (List.replicate count b ++ σ), none⟩) := by
  obtain ⟨k, rfl⟩ : ∃ k, count = k + 1 := ⟨count - 1, by omega⟩
  cases k with
  | zero => exact ⟨8, rfl⟩
  | succ k =>
    have tail := times_run_aux b k (some (.seq (some (.intLit a)) (some (.intLit m)))) (b :: σ)
      (.ok ⟨m :: a :: (List.replicate (k + 1 + 1) b ++ σ), none⟩)
      ⟨6, by rw [← replicate_append_cons (k + 1) b σ]; rfl⟩
    obtain ⟨mf, hm⟩ := tail
    refine ⟨mf + 3, ?_⟩
    show fift.runO (mf + 3) []
      (some (.times (some (.intLit b)) (some (.intLit a)) (k + 1 + 1)))
      ⟨σ, some (.intLit m)⟩ = some _
    simp only [fift.runO, fift.step, fift.insert_before_next, List.headD, List.tail,
      Bool.false_eq_true, if_false]
    rw [if_pos (show k + 1 + 1 > 1 by omega)]
    simp only [fift.runO, fift.step, List.headD, List.tail, Nat.add_sub_cancel,
      Bool.false_eq_true, if_false]
    exact hm

/-- Witness for C6_times_exact_count at count 2 on the empty stack. -/
theorem C6_times_witness :
    fift.runsFrom (some (.times (some (.intLit 1)) (some (.intLit 2)) 2))
      ⟨[], some (.intLit 3)⟩ (.ok ⟨[3, 2, 1, 1], none⟩) :=
  C6_times_exact_count 2 1 2 3 [] (by decide)

/-- Claim C1 (code bug witness): running the same ListCont node over the
    single item IntLit 5 with after IntLit 9 and pending next IntLit 7, the
    uniquely-owned stepping executes the item, the after and the pending next
    (stack 7 9 5), while stepping the node shared executes only the item
    (stack 5): the shared branch enqueues an exhausted successor node whose
    step returns the taken context next and drops the folded after, so the
    two ownership paths diverge. -/
theorem C1_shared_unique_divergence :
    fift.runO 10 [] (some (.list [.intLit 5] (some (.intLit 9)) 0)) ⟨[], some (.intLit 7)⟩ =
      some (.ok ⟨[7, 9, 5], none⟩) ∧
    fift.runO 10 [true] (some (.list [.intLit 5] (some (.intLit 9)) 0)) ⟨[], some (.intLit 7)⟩ =
      some (.ok ⟨[5], none⟩) ∧
    ([7, 9, 5] : List Int) ≠ [5] :=
  ⟨rfl, rfl, by decide⟩

/-- Claim C2 (code bug witness): playing the shared ListCont over the word
    list of the single item IntLit 5 with after IntLit 9 and pending next
    IntLit 7 leaves only 5 on the stack, while running the item in sequence
    followed by the after and the pending next leaves 7 9 5: the playback is
    not trace-equivalent to the sequence. -/
theorem C2_list_playback_divergence :
    fift.runO 10 [true] (some (.list [.intLit 5] (some (.intLit 9)) 0)) ⟨[], some (.intLit 7)⟩ =
      some (.ok ⟨[5], none⟩) ∧
    fift.runO 10 [] (some (.intLit 5))
      ⟨[], some (.seq (some (.intLit 9)) (some (.intLit 7)))⟩ =
      some (.ok ⟨[7, 9, 5], none⟩) ∧
    ([5] : List Int) ≠ [7, 9, 5] :=
  ⟨rfl, rfl, by decide⟩

theorem charsFromByte_zero (l : List Char) : charsFromByte l 0 = l := by
  cases l <;> simp [charsFromByte]

theorem takeWhile_bang_length_lt_iff (p : Char → Bool) (l : List Char) :
    ((l.takeWhile fun c => !(p c)).length < l.length) ↔ ∃ c ∈ l, p c = true := by
  induction l with
  | nil => simp
  | cons c t ih =>
    cases hpc : p c with
    | true =>
      refine iff_of_true ?_ ⟨c, List.mem_cons_self _ _, hpc⟩
      rw [List.takeWhile_cons_of_neg (by simp [hpc])]
      simp
    | false =>
      rw [List.takeWhile_cons_of_pos (by simp [hpc])]
      simp only [List.length_cons]
      rw [Nat.add_lt_add_iff_right, ih]
      constructor
      · rintro ⟨x, hx, hpx⟩
        exact ⟨x, List.mem_cons_of_mem _ hx, hpx⟩
      · rintro ⟨x, hx, hpx⟩
        rcases List.mem_cons.mp hx with rfl | hx2
        · rw [hpc] at hpx
          exact Bool.noConfusion hpx
        · exact ⟨x, hx2, hpx⟩

theorem drop_takeWhile_head {d : Char} :
    ∀ w : List Char, d ∈ w →
      (w.drop ((w.takeWhile fun c => !(c == d)).length)).take 1 = [d] := by
  intro w
  induction w with
  | nil => intro h; simp at h
  | cons c t ih =>
    intro h
    by_cases hc : c = d
    · subst hc
      rw [List.takeWhile_cons_of_neg (by simp)]
      simp
    · rw [List.takeWhile_cons_of_pos (by simp [hc])]
      simp only [List.length_cons, List.drop_succ_cons]
      apply ih
      rcases List.mem_cons.mp h with rfl | h2
      · exact absurd rfl hc
      · exact h2

theorem scanUntilCore_found {b : SourceBlockState} {p : Char → Bool}
    (h : ∃ c ∈ charsFromByte b.line b.line_offset, p c = true) :
    (scanUntilCore b p).1 =
      some ((charsFromByte b.line b.line_offset).takeWhile fun c => !(p c)) ∧
    (scanUntilCore b p).2.line_offset = b.line_offset +
      utf8Len ((charsFromByte b.line b.line_offset).takeWhile fun c => !(p c)) +
      utf8Len (((charsFromByte b.line b.line_offset).drop
        ((charsFromByte b.line b.line_offset).takeWhile fun c => !(p c)).length).take 1) ∧
    (scanUntilCore b p).2.buffer = b.buffer ∧
    (scanUntilCore b p).2.line = b.line := by
  unfold scanUntilCore
  dsimp only
  rw [if_pos ((takeWhile_bang_length_lt_iff p _).mpr h)]
  exact ⟨rfl, rfl, rfl, rfl⟩

theorem scanUntilCore_not_found {b : SourceBlockState} {p : Char → Bool}
    (h : ∀ c ∈ charsFromByte b.line b.line_offset, p c = false) :
    (scanUntilCore b p).1 = none ∧
    (scanUntilCore b p).2.buffer = b.buffer ∧
    (scanUntilCore b p).2.line = b.line := by
  have hne : ¬ ((charsFromByte b.line b.line_offset).takeWhile fun c => !(p c)).length <
      (charsFromByte b.line b.line_offset).length := by
    intro hlt
    obtain ⟨c, hc, hpc⟩ := (takeWhile_bang_length_lt_iff p _).mp hlt
    rw [h c hc] at hpc
    exact Bool.noConfusion hpc
  unfold scanUntilCore
  dsimp only
  rw [if_neg hne]
  exact ⟨rfl, rfl, rfl⟩

theorem scanUntilCore_none_iff {b : SourceBlockState} {p : Char → Bool} :
    (scanUntilCore b p).1 = none ↔
      ∀ c ∈ charsFromByte b.line b.line_offset, p c = false := by
  constructor
  · intro hnone c hc
    by_cases hpc : p c = true
    · obtain ⟨h1, _⟩ := scanUntilCore_found (b := b) (p := p) ⟨c, hc, hpc⟩
      rw [h1] at hnone
      exact Option.noConfusion hnone
    · exact (Bool.not_eq_true _) ▸ hpc
  · intro h
    exact (scanUntilCore_not_found h).1

theorem scanUntilCore_state {b : SourceBlockState} {p : Char → Bool} :
    (scanUntilCore b p).2.buffer = b.buffer ∧ (scanUntilCore b p).2.line = b.line := by
  unfold scanUntilCore
  dsimp only
  split <;> exact ⟨rfl, rfl⟩

theorem needsLine_update (b : SourceBlockState) :
    ({ b with prev_line_offset := b.line_offset } : SourceBlockState).needsLine =
      b.needsLine := rfl

theorem scan_until_no_refresh {b : SourceBlockState} {p : Char → Bool} (h : ¬ b.needsLine) :
    ((SourceBlockState.scan_until b p).1 = none ↔
      ∀ c ∈ charsFromByte b.line b.line_offset, p c = false) ∧
    (SourceBlockState.scan_until b p).2.buffer = b.buffer ∧
    ((∃ c ∈ charsFromByte b.line b.line_offset, p c = true) →
      ((SourceBlockState.scan_until b p).1 =
         some ((charsFromByte b.line b.line_offset).takeWhile fun c => !(p c)) ∧
       (SourceBlockState.scan_until b p).2.line_offset = b.line_offset +
         utf8Len ((charsFromByte b.line b.line_offset).takeWhile fun c => !(p c)) +
         utf8Len (((charsFromByte b.line b.line_offset).drop
           ((charsFromByte b.line b.line_offset).takeWhile fun c => !(p c)).length).take 1))) := by
  have heq : SourceBlockState.scan_until b p =
      scanUntilCore { b with prev_line_offset := b.line_offset } p := by
    unfold SourceBlockState.scan_until
    dsimp only
    simp only [needsLine_update]
    rw [if_neg h]
  rw [heq]
  refine ⟨scanUntilCore_none_iff, scanUntilCore_state.1, ?_⟩
  intro hex
  obtain ⟨h1, h2, _, _⟩ := scanUntilCore_found
    (b := { b with prev_line_offset := b.line_offset }) (p := p) hex
  exact ⟨h1, h2⟩

theorem scan_until_refresh_nil {b : SourceBlockState} {p : Char → Bool}
    (h : b.needsLine) (hb : b.buffer = []) :
    (SourceBlockState.scan_until b p).1 = none ∧
    (SourceBlockState.scan_until b p).2.buffer = [] := by
  have heq : SourceBlockState.scan_until b p = (none,
      ⟨[], [], 0, 0, some (match b.line_number with | some k => k + 1 | none => 0)⟩) := by
    unfold SourceBlockState.scan_until SourceBlockState.read_line
    dsimp only
    simp only [needsLine_update]
    rw [if_pos h]
    simp only [hb]
  rw [heq]
  exact ⟨rfl, rfl⟩

theorem scan_until_refresh_cons {b : SourceBlockState} {p : Char → Bool} {l : List Char}
    {ls : List (List Char)} (h : b.needsLine) (hb : b.buffer = l :: ls) :
    ((SourceBlockState.scan_until b p).1 = none ↔ ∀ c ∈ l, p c = false) ∧
    (SourceBlockState.scan_until b p).2.buffer = ls ∧
    ((∃ c ∈ l, p c = true) →
      ((SourceBlockState.scan_until b p).1 = some (l.takeWhile fun c => !(p c)) ∧
       (SourceBlockState.scan_until b p).2.line_offset =
         utf8Len (l.takeWhile fun c => !(p c)) +
         utf8Len ((l.drop (l.takeWhile fun c => !(p c)).length).take 1))) := by
  have heq : SourceBlockState.scan_until b p = scanUntilCore
      ⟨ls, l, 0, 0, some (match b.line_number with | some k => k + 1 | none => 0)⟩ p := by
    unfold SourceBlockState.scan_until SourceBlockState.read_line
    dsimp only
    simp only [needsLine_update]
    rw [if_pos h]
    simp only [hb]
  rw [heq]
  have hcw : charsFromByte
      (SourceBlockState.mk ls l 0 0 (some (match b.line_number with | some k => k + 1 | none => 0))).line
      (SourceBlockState.mk ls l 0 0 (some (match b.line_number with | some k => k + 1 | none => 0))).line_offset
      = l := charsFromByte_zero l
  refine ⟨?_, scanUntilCore_state.1, ?_⟩
  · rw [scanUntilCore_none_iff, hcw]
  · intro hex
    obtain ⟨h1, h2, _, _⟩ := scanUntilCore_found
      (b := ⟨ls, l, 0, 0, some (match b.line_number with | some k => k + 1 | none => 0)⟩)
      (p := p) (by rw [hcw]; exact hex)
    rw [hcw] at h1 h2
    refine ⟨h1, ?_⟩
    rw [h2]
    simp

theorem lexer_scan_until_error {b : SourceBlockState} {p : Char → Bool}
    {rest : List SourceBlockState} (h : (SourceBlockState.scan_until b p).1 = none) :
    Lexer.scan_until ⟨b :: rest⟩ p = .error () := by
  unfold Lexer.scan_until
  dsimp only
  rcases hsc : SourceBlockState.scan_until b p with ⟨o, b1⟩
  rw [hsc] at h
  dsimp only at h
  subst h
  simp only [hsc]

theorem lexer_sud_some {b b1 : SourceBlockState} {d : Char} {rest : List SourceBlockState}
    {tok : List Char}
    (h : SourceBlockState.scan_until b (fun c => c == d) = (some tok, b1)) :
    Lexer.scan_until_delimiter ⟨b :: rest⟩ d = .ok (tok, ⟨b1 :: rest⟩) := by
  unfold Lexer.scan_until_delimiter
  dsimp only
  simp only [h]

theorem lexer_sud_none (rest : List SourceBlockState) {b b1 : SourceBlockState} {d : Char}
    (h : SourceBlockState.scan_until b (fun c => c == d) = (none, b1)) :
    Lexer.scan_until_delimiter ⟨b :: rest⟩ d =
      if d.toNat = 0 then .ok ([], ⟨b1 :: rest⟩) else .error () := by
  unfold Lexer.scan_until_delimiter
  dsimp only
  simp only [h]

/-- Claim C9: one scan_until call searches only the rest of the current line,
    reading at most one fresh line and only when the current line is empty or
    exhausted; with no refresh the buffered lines are untouched and the call
    misses exactly when no character of the line rest matches; with a refresh
    exactly the first buffered line is consumed and searched; any later
    buffered line is never inspected, and a block-level miss surfaces as the
    unexpected-EOF error of the Lexer scan_until wrapper. -/
theorem C9_scan_until_line_local (b : SourceBlockState) (p : Char → Bool)
    (rest : List SourceBlockState) :
    (¬ b.needsLine →
      ((SourceBlockState.scan_until b p).2.buffer = b.buffer ∧
       ((SourceBlockState.scan_until b p).1 = none ↔
         ∀ c ∈ charsFromByte b.line b.line_offset, p c = false))) ∧
    (b.needsLine → b.buffer = [] →
      ((SourceBlockState.scan_until b p).1 = none ∧
       (SourceBlockState.scan_until b p).2.buffer = [])) ∧
    (∀ l ls, b.needsLine → b.buffer = l :: ls →
      (((SourceBlockState.scan_until b p).1 = none ↔ ∀ c ∈ l, p c = false) ∧
       (SourceBlockState.scan_until b p).2.buffer = ls)) ∧
    ((SourceBlockState.scan_until b p).1 = none →
      Lexer.scan_until ⟨b :: rest⟩ p = .error ()) := by
  refine ⟨?_, ?_, ?_, ?_⟩
  · intro h
    obtain ⟨h1, h2, _⟩ := scan_until_no_refresh (p := p) h
    exact ⟨h2, h1⟩
  · intro h hb
    exact scan_until_refresh_nil h hb
  · intro l ls h hb
    obtain ⟨h1, h2, _⟩ := scan_until_refresh_cons (p := p) h hb
    exact ⟨h1, h2⟩
  · intro h
    exact lexer_scan_until_error h

/-- Witness for C9_scan_until_line_local: a block whose current line ab holds
    no semicolon misses even though a later buffered line holds one, and the
    wrapper surfaces the unexpected-EOF error. -/
theorem C9_witness :
    ((SourceBlockState.scan_until ⟨[[';']], ['a', 'b'], 0, 0, none⟩
        (fun c => c == ';')).2.buffer = [[';']] ∧
     ((SourceBlockState.scan_until ⟨[[';']], ['a', 'b'], 0, 0, none⟩
        (fun c => c == ';')).1 = none ↔
       ∀ c ∈ charsFromByte ['a', 'b'] 0, (c == ';') = false)) ∧
    Lexer.scan_until ⟨[⟨[[';']], ['a', 'b'], 0, 0, none⟩]⟩ (fun c => c == ';') =
      .error () := by
  constructor
  · exact (C9_scan_until_line_local ⟨[[';']], ['a', 'b'], 0, 0, none⟩
      (fun c => c == ';') []).1 (by decide)
  · exact (C9_scan_until_line_local ⟨[[';']], ['a', 'b'], 0, 0, none⟩
      (fun c => c == ';') []).2.2.2 (by rfl)

/-- Claim C7, counterexample: scanning for a semicolon that occurs only on the
    second buffered line fails with unexpected EOF even though the input is
    not at end of file and the delimiter does occur later; and with no source
    block at all, even the null delimiter yields the unexpected-EOF error of
    use_last_block rather than an empty token. -/
theorem C7_counterexample :
    Lexer.scan_until_delimiter
      ⟨[⟨[['a', 'b', '\n'], ['c', 'd', ';', 'x', '\n']], [], 0, 0, none⟩]⟩ ';' =
      .error () ∧
    ';' ∈ ['c', 'd', ';', 'x', '\n'] ∧
    Lexer.scan_until_delimiter ⟨[]⟩ (Char.ofNat 0) = .error () ∧
    (Char.ofNat 0).toNat = 0 :=
  ⟨rfl, by decide, rfl, rfl⟩

/-- Claim C7 (amended): scan_until_delimiter searches only one window, the
    rest of the current line or one freshly read line; it returns the run
    before the first occurrence of the delimiter in that window and consumes
    the delimiter (the new offset passes the token and the delimiter); when
    the window has no delimiter, or there is no window, it fails with the
    unexpected-EOF error, except that a windowless or delimiter-free scan
    with the null delimiter on a nonempty block stack returns the empty
    token; with no source block at all it always fails. -/
theorem C7_amended (b : SourceBlockState) (rest : List SourceBlockState) (d : Char) :
    Lexer.scan_until_delimiter ⟨[]⟩ d = .error () ∧
    (scanWindow b = none →
      ((d.toNat = 0 → ∃ lx1, Lexer.scan_until_delimiter ⟨b :: rest⟩ d = .ok ([], lx1)) ∧
       (¬ d.toNat = 0 → Lexer.scan_until_delimiter ⟨b :: rest⟩ d = .error ()))) ∧
    (∀ w, scanWindow b = some w →
      ((d ∈ w → ∃ b1,
          Lexer.scan_until_delimiter ⟨b :: rest⟩ d =
            .ok (w.takeWhile fun c => !(c == d), Lexer.mk (b1 :: rest)) ∧
          b1.line_offset = (if b.needsLine then 0 else b.line_offset) +
            utf8Len (w.takeWhile fun c => !(c == d)) + Char.utf8Size d) ∧
       (d ∉ w →
         ((d.toNat = 0 → ∃ lx1, Lexer.scan_until_delimiter ⟨b :: rest⟩ d = .ok ([], lx1)) ∧
          (¬ d.toNat = 0 → Lexer.scan_until_delimiter ⟨b :: rest⟩ d = .error ()))))) := by
  refine ⟨rfl, ?_, ?_⟩
  · intro hw
    have hnl : b.needsLine ∧ b.buffer = [] := by
      unfold scanWindow at hw
      by_cases h : b.needsLine
      · rw [if_pos h] at hw
        exact ⟨h, List.head?_eq_none_iff.mp hw⟩
      · rw [if_neg h] at hw
        exact Option.noConfusion hw
    obtain ⟨h1, _⟩ := scan_until_refresh_nil (p := fun c => c == d) hnl.1 hnl.2
    rcases hsc : SourceBlockState.scan_until b (fun c => c == d) with ⟨o, b1⟩
    rw [hsc] at h1
    dsimp only at h1
    subst h1
    have := lexer_sud_none rest hsc
    constructor
    · intro hd0
      rw [this, if_pos hd0]
      exact ⟨⟨b1 :: rest⟩, rfl⟩
    · intro hd0
      rw [this, if_neg hd0]
  · intro w hw
    by_cases hnl : b.needsLine
    · -- refresh: the window is the first buffered line
      obtain ⟨ls, hbuf⟩ : ∃ ls, b.buffer = w :: ls := by
        unfold scanWindow at hw
        rw [if_pos hnl] at hw
        cases hb : b.buffer with
        | nil => rw [hb] at hw; exact Option.noConfusion hw
        | cons l ls =>
          rw [hb] at hw
          simp only [List.head?_cons] at hw
          exact ⟨ls, by rw [Option.some.inj hw]⟩
      obtain ⟨hiff, _, hfound⟩ :=
        scan_until_refresh_cons (p := fun c => c == d) hnl hbuf
      constructor
      · intro hdw
        obtain ⟨h1, h2⟩ := hfound ⟨d, hdw, beq_self_eq_true d⟩
        rcases hsc : SourceBlockState.scan_until b (fun c => c == d) with ⟨o, b1⟩
        rw [hsc] at h1 h2
        dsimp only at h1 h2
        subst h1
        refine ⟨b1, lexer_sud_some hsc, ?_⟩
        rw [if_pos hnl, h2, drop_takeWhile_head w hdw]
        simp [utf8Len]
      · intro hdw
        have h1 : (SourceBlockState.scan_until b (fun c => c == d)).1 = none := by
          rw [hiff]
          intro c hc
          by_cases hcd : c = d
          · exact absurd (hcd ▸ hc) hdw
          · simp [hcd]
        rcases hsc : SourceBlockState.scan_until b (fun c => c == d) with ⟨o, b1⟩
        rw [hsc] at h1
        dsimp only at h1
        subst h1
        have := lexer_sud_none rest hsc
        constructor
        · intro hd0
          rw [this, if_pos hd0]
          exact ⟨⟨b1 :: rest⟩, rfl⟩
        · intro hd0
          rw [this, if_neg hd0]
    · -- no refresh: the window is the rest of the current line
      have hwv : w = charsFromByte b.line b.line_offset := by
        unfold scanWindow at hw
        rw [if_neg hnl] at hw
        exact (Option.some.inj hw).symm
      subst hwv
      obtain ⟨hiff, _, hfound⟩ := scan_until_no_refresh (p := fun c => c == d) hnl
      constructor
      · intro hdw
        obtain ⟨h1, h2⟩ := hfound ⟨d, hdw, beq_self_eq_true d⟩
        rcases hsc : SourceBlockState.scan_until b (fun c => c == d) with ⟨o, b1⟩
        rw [hsc] at h1 h2
        dsimp only at h1 h2
        subst h1
        refine ⟨b1, lexer_sud_some hsc, ?_⟩
        rw [if_neg hnl, h2, drop_takeWhile_head _ hdw]
        simp [utf8Len]
      · intro hdw
        have h1 : (SourceBlockState.scan_until b (fun c => c == d)).1 = none := by
          rw [hiff]
          intro c hc
          by_cases hcd : c = d
          · exact absurd (hcd ▸ hc) hdw
          · simp [hcd]
        rcases hsc : SourceBlockState.scan_until b (fun c => c == d) with ⟨o, b1⟩
        rw [hsc] at h1
        dsimp only at h1
        subst h1
        have := lexer_sud_none rest hsc
        constructor
        · intro hd0
          rw [this, if_pos hd0]
          exact ⟨⟨b1 :: rest⟩, rfl⟩
        · intro hd0
          rw [this, if_neg hd0]

/-- Witness for C7_amended: scanning the line a semicolon b from offset zero
    returns the token a and consumes the semicolon. -/
theorem C7_amended_witness :
    ∃ b1, Lexer.scan_until_delimiter ⟨[⟨[], ['a', ';', 'b'], 0, 0, none⟩]⟩ ';' =
        .ok (['a', ';', 'b'].takeWhile fun c => !(c == ';'), Lexer.mk (b1 :: [])) ∧
      b1.line_offset = (if (⟨[], ['a', ';', 'b'], 0, 0, none⟩ : SourceBlockState).needsLine
          then 0 else 0) + utf8Len (['a', ';', 'b'].takeWhile fun c => !(c == ';')) +
        Char.utf8Size ';' :=
  ((C7_amended ⟨[], ['a', ';', 'b'], 0, 0, none⟩ [] ';').2.2
    ['a', ';', 'b'] (by rfl)).1 (by decide)

theorem wordInLine_offset {line : List Char} {off : Nat} {t : List Char} {off2 : Nat}
    (h : wordInLine line off = some (t, off2)) : utf8Len t ≤ off2 := by
  unfold wordInLine at h
  cases he : ((charsFromByte line off).dropWhile Char.isWhitespace).takeWhile
      (fun c => !c.isWhitespace) with
  | nil =>
    simp only [he] at h
    exact Option.noConfusion h
  | cons c t1 =>
    simp only [he] at h
    have h3 := Option.some.inj h
    rw [Prod.ext_iff] at h3
    obtain ⟨h1, h2⟩ := h3
    dsimp only at h1 h2
    rw [← h1, ← h2]
    exact Nat.le_add_left _ _

theorem scanWordGo_offset :
    ∀ (fuel : Nat) (b : SourceBlockState) (t : List Char) (b1 : SourceBlockState),
      scanWordGo fuel b = (some t, b1) → utf8Len t ≤ b1.line_offset := by
  intro fuel
  induction fuel with
  | zero =>
    intro b t b1 h
    unfold scanWordGo at h
    rcases hr : SourceBlockState.read_line b with ⟨flag, b2⟩
    rw [hr] at h
    cases flag with
    | false =>
      dsimp only at h
      injection h with h1 h2
      exact Option.noConfusion h1
    | true =>
      dsimp only at h
      rcases hw : wordInLine b2.line 0 with _ | ⟨tk, off⟩
      · simp only [hw] at h
        injection h with h1 h2
        exact Option.noConfusion h1
      · simp only [hw] at h
        injection h with h1 h2
        rw [← h2]
        exact wordInLine_offset (Option.some.inj h1 ▸ hw)
  | succ fuel ih =>
    intro b t b1 h
    unfold scanWordGo at h
    rcases hr : SourceBlockState.read_line b with ⟨flag, b2⟩
    rw [hr] at h
    cases flag with
    | false =>
      dsimp only at h
      injection h with h1 h2
      exact Option.noConfusion h1
    | true =>
      dsimp only at h
      rcases hw : wordInLine b2.line 0 with _ | ⟨tk, off⟩
      · simp only [hw] at h
        exact ih _ _ _ h
      · simp only [hw] at h
        injection h with h1 h2
        rw [← h2]
        exact wordInLine_offset (Option.some.inj h1 ▸ hw)

theorem scan_word_offset {b : SourceBlockState} {t : List Char} {b1 : SourceBlockState}
    (h : SourceBlockState.scan_word b = (some t, b1)) : utf8Len t ≤ b1.line_offset := by
  unfold SourceBlockState.scan_word at h
  dsimp only at h
  split at h
  · exact scanWordGo_offset _ _ _ _ h
  · rcases hw : wordInLine b.line b.line_offset with _ | ⟨tk, off⟩
    · simp only [hw] at h
      exact scanWordGo_offset _ _ _ _ h
    · simp only [hw] at h
      injection h with h1 h2
      rw [← h2]
      exact wordInLine_offset (Option.some.inj h1 ▸ hw)

/-- Claim C10: a block rewind is a plain subtraction of the byte count from
    the current line offset, total exactly when the count does not exceed the
    offset; and after any successful scan_word, rewinding by the byte delta
    of the token against any of its subtokens always stays within the
    offset, so the rewind the interpreter issues never underflows. -/
theorem C10_rewind_underflow_safe :
    (∀ (b : SourceBlockState) (n : Nat),
      (SourceBlockState.rewind b n).isSome ↔ n ≤ b.line_offset) ∧
    (∀ (b : SourceBlockState) (n : Nat) (b1 : SourceBlockState),
      SourceBlockState.rewind b n = some b1 → b1.line_offset = b.line_offset - n) ∧
    (∀ (lx : Lexer) (t : List Char) (lx1 : Lexer) (s1 : List Char),
      Lexer.scan_word lx = (some t, lx1) → s1 ∈ subtokens t →
      (Lexer.rewind lx1 (Token.delta t s1)).isSome) := by
  refine ⟨?_, ?_, ?_⟩
  · intro b n
    constructor
    · intro hs
      by_contra hn
      unfold SourceBlockState.rewind at hs
      rw [if_neg hn] at hs
      simp at hs
    · intro hle
      unfold SourceBlockState.rewind
      rw [if_pos hle]
      rfl
  · intro b n b1 h
    unfold SourceBlockState.rewind at h
    split at h
    · rw [← Option.some.inj h]
    · exact Option.noConfusion h
  · intro lx t lx1 s1 hscan hsub
    unfold Lexer.scan_word at hscan
    cases hbl : lx.blocks with
    | nil =>
      rw [hbl] at hscan
      dsimp only at hscan
      injection hscan with h1 h2
      exact Option.noConfusion h1
    | cons b rest =>
      rw [hbl] at hscan
      dsimp only at hscan
      rcases hsw : SourceBlockState.scan_word b with ⟨r, b2⟩
      simp only [hsw] at hscan
      injection hscan with h1 h2
      subst h2
      have hsw2 : SourceBlockState.scan_word b = (some t, b2) := by rw [hsw, h1]
      have hoff := scan_word_offset hsw2
      have hdelta : Token.delta t s1 ≤ utf8Len t := Nat.sub_le _ _
      unfold Lexer.rewind
      dsimp only
      unfold SourceBlockState.rewind
      rw [if_pos (by omega)]
      rfl

/-- Witness for C10_rewind_underflow_safe: a one-byte rewind on offset one,
    and the rewind of the delta of token ab against subtoken a after the
    scan of ab. -/
theorem C10_witness :
    ((SourceBlockState.rewind ⟨[], ['a'], 1, 0, none⟩ 1).isSome = true) ∧
    ((Lexer.rewind ⟨[⟨[], ['a', 'b'], 2, 0, some 0⟩]⟩
        (Token.delta ['a', 'b'] ['a'])).isSome = true) := by
  constructor
  · exact (C10_rewind_underflow_safe.1 ⟨[], ['a'], 1, 0, none⟩ 1).mpr (by decide)
  · exact C10_rewind_underflow_safe.2.2 ⟨[⟨[['a', 'b']], [], 0, 0, none⟩]⟩ ['a', 'b']
      ⟨[⟨[], ['a', 'b'], 2, 0, some 0⟩]⟩ ['a'] (by rfl) (by decide)
